import Mathlib

/-!
Verification development for the SMI arbitration subsystem
(`src/smi/protocol.go`, `src/smi/arbitrate.go`).

The Go code is a set of communicating sequential routines.  We embed it
shallowly: each routine body becomes a pure Lean function on explicit
streams (lists of flits) and explicit state; channel receives become list
pattern matches, channel sends become list appends, and the two possible
run-time effects of a channel operation or array access are made explicit
in a result type (`PMRes`): `block` for a receive/send that can never
complete, `fault` for a Go bounds-check panic.
-/

/-- Flit64 mirrors the Go struct: an 8-byte payload plus a completion code.
`Data [8]uint8` becomes a total function from `Fin 8`; bytes are `Nat`
(no arithmetic is ever performed on them, only copying). -/
structure Flit64 where
  data : Fin 8 → Nat
  eofc : Nat
deriving DecidableEq

/-- The flits of the first frame of a stream: everything up to and
including the first flit with nonzero completion code. -/
def takeFrame : List Flit64 → List Flit64
  | [] => []
  | f :: rest => if f.eofc == 0 then f :: takeFrame rest else [f]

/-- The stream remaining after the first frame. -/
def dropFrame : List Flit64 → List Flit64
  | [] => []
  | f :: rest => if f.eofc == 0 then dropFrame rest else rest

/-- Direct translation of the `moreFlits` copy loops that appear in
`manageUpstreamPort` and the arbiter request sides: read flits until one
with nonzero completion code (inclusive), returning the flits read and the
unread remainder of the stream. -/
def readFrame64 : List Flit64 → List Flit64 × List Flit64
  | [] => ([], [])
  | f :: rest =>
    if f.eofc == 0 then
      let p := readFrame64 rest
      (f :: p.1, p.2)
    else ([f], rest)

/-- The stream contains a flit with nonzero completion code, i.e. its
first frame is complete. -/
def hasTerminal (l : List Flit64) : Bool :=
  l.any (fun f => f.eofc != 0)

/-- A complete frame: nonempty, every flit before the last has completion
code 0, and the last flit has nonzero completion code. -/
def IsFrameB : List Flit64 → Bool
  | [] => false
  | f :: rest =>
    match rest with
    | [] => f.eofc != 0
    | _ :: _ => f.eofc == 0 && IsFrameB rest

/-- A stream is a concatenation of complete frames: scanning it flit by
flit, the end of the stream is only reached at a frame boundary.  The
Boolean argument records whether the scan is currently inside a frame. -/
def streamWF : Bool → List Flit64 → Bool
  | inFrame, [] => !inFrame
  | _, f :: rest => streamWF (f.eofc == 0) rest

-- Protocol constants from src/smi/protocol.go.

def SmiMemWriteReq : Nat := 0x01

def SmiMemWriteResp : Nat := 0xFE

def SmiMemReadReq : Nat := 0x02

def SmiMemReadResp : Nat := 0xFD

def DefaultOptions : Nat := 0x00

def MemOptUnbuffered : Nat := 0x01

def SmiMemBurstSize : Nat := 256

def SmiMemFrame64Size : Nat := 2 + SmiMemBurstSize / 8

def SmiMemInFlightLimit : Nat := 4

/-- The literal capacity `34` given to `make(chan Flit64, 34)` in both
`ForwardFrame64` and `AssembleFrame64` (the source hard-codes the number
with a comment naming `SmiMemFrame64Size`). -/
def frameBufferCapacity : Nat := 34

/-!
ForwardFrame64: the routine runs an ingress goroutine and an egress loop
sharing one bounded buffer.  We model it as a small-step system: the
state carries the unread input, the buffer contents, the written output
and the two loop-exit flags, and a schedule (a list of Booleans) chooses
at each step which of the two loops runs.  A loop whose channel operation
cannot complete (no input, full buffer, empty buffer) or that has already
exited simply does nothing on its turn.
-/

structure FwdState where
  inp : List Flit64
  buf : List Flit64
  out : List Flit64
  inDone : Bool
  outDone : Bool
deriving DecidableEq

/-- One step of the ingress goroutine of `ForwardFrame64`: read a flit
from the input and push it into the buffer, exiting the loop after a flit
with nonzero completion code. -/
def fwdIngress (cap : Nat) (s : FwdState) : FwdState :=
  if s.inDone then s
  else
    match s.inp with
    | [] => s
    | f :: rest =>
      if s.buf.length < cap then
        { s with inp := rest, buf := s.buf ++ [f], inDone := f.eofc != 0 }
      else s

/-- One step of the egress loop of `ForwardFrame64`: pop a flit from the
buffer and write it to the output, exiting after a flit with nonzero
completion code. -/
def fwdEgress (s : FwdState) : FwdState :=
  if s.outDone then s
  else
    match s.buf with
    | [] => s
    | f :: rest =>
      { s with buf := rest, out := s.out ++ [f], outDone := f.eofc != 0 }

def fwdInit (input : List Flit64) : FwdState :=
  ⟨input, [], [], false, false⟩

def fwdRun (cap : Nat) : List Bool → FwdState → FwdState
  | [], s => s
  | c :: cs, s => fwdRun cap cs (if c then fwdIngress cap s else fwdEgress s)

/-- ForwardFrame64, parametrised by the interleaving of its two loops. -/
def ForwardFrame64 (sched : List Bool) (input : List Flit64) : FwdState :=
  fwdRun frameBufferCapacity sched (fwdInit input)

/-- A schedule alternating one ingress step and one egress step. -/
def altSched : Nat → List Bool
  | 0 => []
  | n + 1 => true :: false :: altSched n

/-- The ingress loop of `AssembleFrame64`: drain one whole frame from the
input into the buffer.  Returns `none` when the routine blocks forever:
either the buffer fills before the terminal flit arrives, or the input is
exhausted mid-frame. -/
def assembleIngress (cap : Nat) (buf : List Flit64) : List Flit64 → Option (List Flit64 × List Flit64)
  | [] => none
  | f :: rest =>
    if buf.length < cap then
      if f.eofc == 0 then assembleIngress cap (buf ++ [f]) rest
      else some (buf ++ [f], rest)
    else none

/-- The egress loop shared by both buffers: pop flits until one with
nonzero completion code has been written. -/
def drainFrame64 : List Flit64 → List Flit64
  | [] => []
  | f :: rest => if f.eofc == 0 then f :: drainFrame64 rest else [f]

/-- AssembleFrame64: ingress runs to completion, then egress.  The result
is the pair (flits written to the output, unread remainder of the input),
or `none` if the routine blocks forever. -/
def AssembleFrame64 (input : List Flit64) : Option (List Flit64 × List Flit64) :=
  match assembleIngress frameBufferCapacity [] input with
  | none => none
  | some (buf, rem) => some (drainFrame64 buf, rem)

-- Basic lemmas about frames.

theorem readFrame64_eq (l : List Flit64) : readFrame64 l = (takeFrame l, dropFrame l) := by
  induction l with
  | nil => rfl
  | cons f rest ih =>
    simp only [readFrame64, takeFrame, dropFrame]
    by_cases h : f.eofc = 0 <;> simp [h, ih]

theorem takeFrame_nil_iff (l : List Flit64) : takeFrame l = [] ↔ l = [] := by
  cases l with
  | nil => simp [takeFrame]
  | cons f rest =>
    simp only [takeFrame]
    by_cases h : f.eofc = 0 <;> simp [h]

theorem takeFrame_idem (l : List Flit64) : takeFrame (takeFrame l) = takeFrame l := by
  induction l with
  | nil => rfl
  | cons f rest ih =>
    by_cases h : f.eofc = 0
    · simp [takeFrame, h, ih]
    · simp [takeFrame, h]

theorem drainFrame64_eq_takeFrame (l : List Flit64) : drainFrame64 l = takeFrame l := by
  induction l with
  | nil => rfl
  | cons f rest ih =>
    by_cases h : f.eofc = 0
    · simp [drainFrame64, takeFrame, h, ih]
    · simp [drainFrame64, takeFrame, h]

/-- Inside the first frame of a stream, no flit follows the terminal one:
if the frame splits as `xs ++ f :: ys` with everything in `xs` mid-frame
and `f` terminal, then `ys` is empty. -/
theorem takeFrame_terminal_last (l : List Flit64) :
    ∀ xs f ys, takeFrame l = xs ++ f :: ys → (∀ g ∈ xs, g.eofc = 0) → f.eofc ≠ 0 → ys = [] := by
  induction l with
  | nil => intro xs f ys heq _ _; simp [takeFrame] at heq
  | cons a rest ih =>
    intro xs f ys heq hxs hf
    by_cases ha : a.eofc = 0
    · rw [takeFrame] at heq
      simp only [ha, beq_self_eq_true, if_true] at heq
      cases xs with
      | nil =>
        simp only [List.nil_append, List.cons.injEq] at heq
        exact absurd (heq.1 ▸ ha) hf
      | cons x xs2 =>
        simp only [List.cons_append, List.cons.injEq] at heq
        exact ih xs2 f ys heq.2 (fun g hg => hxs g (List.mem_cons_of_mem x hg)) hf
    · rw [takeFrame] at heq
      simp only [beq_iff_eq, ha, if_false] at heq
      cases xs with
      | nil =>
        simp only [List.nil_append, List.cons.injEq] at heq
        exact heq.2.symm
      | cons x xs2 =>
        simp only [List.cons_append, List.cons.injEq] at heq
        exact absurd heq.2 (by simp)

/-- Invariant of the `ForwardFrame64` small-step system, relative to the
original input stream. -/
def FwdInv (input : List Flit64) (s : FwdState) : Prop :=
  (s.outDone = false → ∀ f ∈ s.out, f.eofc = 0) ∧
  (s.inDone = false →
    (∀ f ∈ s.buf, f.eofc = 0) ∧
    takeFrame input = s.out ++ s.buf ++ takeFrame s.inp ∧
    dropFrame input = dropFrame s.inp) ∧
  (s.inDone = true → s.out ++ s.buf = takeFrame input ∧ s.inp = dropFrame input) ∧
  (s.outDone = true → s.inDone = true ∧ s.buf = [] ∧ s.out = takeFrame input)

theorem fwdInv_init (input : List Flit64) : FwdInv input (fwdInit input) := by
  refine ⟨?_, ?_, ?_, ?_⟩
  · intro _ f hf; simp [fwdInit] at hf
  · intro _
    exact ⟨fun f hf => by simp [fwdInit] at hf, by simp [fwdInit], by simp [fwdInit]⟩
  · intro h; simp [fwdInit] at h
  · intro h; simp [fwdInit] at h

theorem fwdInv_ingress (cap : Nat) (input : List Flit64) (s : FwdState)
    (h : FwdInv input s) : FwdInv input (fwdIngress cap s) := by
  obtain ⟨inp, buf, out, inDone, outDone⟩ := s
  obtain ⟨h1, h2, h3, h4⟩ := h
  cases inDone with
  | true => exact ⟨h1, h2, h3, h4⟩
  | false =>
    obtain ⟨hbuf0, htake, hdrop⟩ := h2 rfl
    cases outDone with
    | true => exact absurd (h4 rfl).1 (by simp)
    | false =>
      cases inp with
      | nil => exact ⟨h1, h2, h3, h4⟩
      | cons f rest =>
        show FwdInv input
          (if buf.length < cap then ⟨rest, buf ++ [f], out, f.eofc != 0, false⟩
           else ⟨f :: rest, buf, out, false, false⟩)
        by_cases hcap : buf.length < cap
        · rw [if_pos hcap]
          by_cases hf : f.eofc = 0
          · have hbne : (f.eofc != 0) = false := by simp [hf]
            rw [hbne]
            refine ⟨?_, ?_, ?_, ?_⟩
            · intro _ g hg; exact h1 rfl g hg
            · intro _
              refine ⟨?_, ?_, ?_⟩
              · intro g hg
                rcases List.mem_append.mp hg with hg | hg
                · exact hbuf0 g hg
                · simp only [List.mem_singleton] at hg; exact hg ▸ hf
              · rw [htake]
                simp [takeFrame, hf, List.append_assoc]
              · rw [hdrop]
                simp [dropFrame, hf]
            · intro hcontra; exact absurd hcontra (by simp)
            · intro hcontra; exact absurd hcontra (by simp)
          · have hbne : (f.eofc != 0) = true := by simp [hf]
            rw [hbne]
            refine ⟨?_, ?_, ?_, ?_⟩
            · intro _ g hg; exact h1 rfl g hg
            · intro hcontra; exact absurd hcontra (by simp)
            · intro _
              constructor
              · rw [htake]
                simp [takeFrame, hf, List.append_assoc]
              · rw [hdrop]
                simp [dropFrame, hf]
            · intro hcontra; exact absurd hcontra (by simp)
        · rw [if_neg hcap]
          exact ⟨h1, h2, h3, h4⟩

theorem fwdInv_egress (input : List Flit64) (s : FwdState)
    (h : FwdInv input s) : FwdInv input (fwdEgress s) := by
  obtain ⟨inp, buf, out, inDone, outDone⟩ := s
  obtain ⟨h1, h2, h3, h4⟩ := h
  cases outDone with
  | true => exact ⟨h1, h2, h3, h4⟩
  | false =>
    have hout0 := h1 rfl
    cases buf with
    | nil => exact ⟨h1, h2, h3, h4⟩
    | cons f bufRest =>
      show FwdInv input ⟨inp, bufRest, out ++ [f], inDone, f.eofc != 0⟩
      cases inDone with
      | true =>
        obtain ⟨htake, hinp⟩ := h3 rfl
        by_cases hf : f.eofc = 0
        · have hbne : (f.eofc != 0) = false := by simp [hf]
          rw [hbne]
          refine ⟨?_, ?_, ?_, ?_⟩
          · intro _ g hg
            rcases List.mem_append.mp hg with hg | hg
            · exact hout0 g hg
            · simp only [List.mem_singleton] at hg; exact hg ▸ hf
          · intro hcontra; exact absurd hcontra (by simp)
          · intro _
            refine ⟨?_, hinp⟩
            rw [← htake]; simp
          · intro hcontra; exact absurd hcontra (by simp)
        · have hbne : (f.eofc != 0) = true := by simp [hf]
          have hrest : bufRest = [] :=
            takeFrame_terminal_last input out f bufRest htake.symm hout0 hf
          rw [hbne]
          subst hrest
          refine ⟨?_, ?_, ?_, ?_⟩
          · intro hcontra; exact absurd hcontra (by simp)
          · intro hcontra; exact absurd hcontra (by simp)
          · intro _
            refine ⟨?_, hinp⟩
            rw [← htake]; simp
          · intro _
            refine ⟨rfl, rfl, ?_⟩
            rw [← htake]
      | false =>
        obtain ⟨hbuf0, htake, hdrop⟩ := h2 rfl
        have hf : f.eofc = 0 := hbuf0 f (List.mem_cons_self f bufRest)
        have hbne : (f.eofc != 0) = false := by simp [hf]
        rw [hbne]
        refine ⟨?_, ?_, ?_, ?_⟩
        · intro _ g hg
          rcases List.mem_append.mp hg with hg | hg
          · exact hout0 g hg
          · simp only [List.mem_singleton] at hg; exact hg ▸ hf
        · intro _
          refine ⟨fun g hg => hbuf0 g (List.mem_cons_of_mem f hg), ?_, hdrop⟩
          rw [htake]; simp
        · intro hcontra; exact absurd hcontra (by simp)
        · intro hcontra; exact absurd hcontra (by simp)

theorem fwdInv_run (cap : Nat) (input : List Flit64) :
    ∀ (sched : List Bool) (s : FwdState), FwdInv input s → FwdInv input (fwdRun cap sched s) := by
  intro sched
  induction sched with
  | nil => intro s h; exact h
  | cons c cs ih =>
    intro s h
    rw [fwdRun]
    refine ih _ ?_
    cases c
    · exact fwdInv_egress input s h
    · exact fwdInv_ingress cap input s h

/-- Under the schedule that alternates one ingress and one egress step,
`ForwardFrame64` completes: it forwards exactly the first frame and
leaves the rest of the input unread. -/
theorem fwd_altSched_completes (cap : Nat) (hcap : 0 < cap) :
    ∀ (inp outAcc : List Flit64), hasTerminal inp = true →
      fwdRun cap (altSched (takeFrame inp).length) ⟨inp, [], outAcc, false, false⟩ =
        ⟨dropFrame inp, [], outAcc ++ takeFrame inp, true, true⟩ := by
  intro inp
  induction inp with
  | nil => intro outAcc hterm; simp [hasTerminal] at hterm
  | cons f rest ih =>
    intro outAcc hterm
    by_cases hf : f.eofc = 0
    · have hterm2 : hasTerminal rest = true := by
        simp only [hasTerminal, List.any_cons, Bool.or_eq_true] at hterm
        rcases hterm with hterm | hterm
        · simp [hf] at hterm
        · simpa [hasTerminal] using hterm
      have htf : takeFrame (f :: rest) = f :: takeFrame rest := by simp [takeFrame, hf]
      have hdf : dropFrame (f :: rest) = dropFrame rest := by simp [dropFrame, hf]
      rw [htf, hdf, List.length_cons, altSched]
      have hstep1 : fwdIngress cap ⟨f :: rest, [], outAcc, false, false⟩ =
          ⟨rest, [f], outAcc, false, false⟩ := by
        simp [fwdIngress, hcap, hf]
      have hstep2 : fwdEgress ⟨rest, [f], outAcc, false, false⟩ =
          ⟨rest, [], outAcc ++ [f], false, false⟩ := by
        simp [fwdEgress, hf]
      show fwdRun cap (altSched (takeFrame rest).length)
          (fwdEgress (fwdIngress cap ⟨f :: rest, [], outAcc, false, false⟩)) = _
      rw [hstep1, hstep2, ih (outAcc ++ [f]) hterm2]
      simp [List.append_assoc]
    · have htf : takeFrame (f :: rest) = [f] := by simp [takeFrame, hf]
      have hdf : dropFrame (f :: rest) = rest := by simp [dropFrame, hf]
      rw [htf, hdf]
      have hbne : (f.eofc != 0) = true := by simp [hf]
      have hstep1 : fwdIngress cap ⟨f :: rest, [], outAcc, false, false⟩ =
          ⟨rest, [f], outAcc, true, false⟩ := by
        simp [fwdIngress, hcap, hbne]
      have hstep2 : fwdEgress ⟨rest, [f], outAcc, true, false⟩ =
          ⟨rest, [], outAcc ++ [f], true, true⟩ := by
        simp [fwdEgress, hbne]
      show fwdEgress (fwdIngress cap ⟨f :: rest, [], outAcc, false, false⟩) = _
      rw [hstep1, hstep2]

/-- The ingress loop of `AssembleFrame64` buffers exactly the first frame
of the input, provided the frame is complete and fits in the buffer. -/
theorem assembleIngress_eq (cap : Nat) :
    ∀ (input buf : List Flit64), hasTerminal input = true →
      buf.length + (takeFrame input).length ≤ cap →
      assembleIngress cap buf input = some (buf ++ takeFrame input, dropFrame input) := by
  intro input
  induction input with
  | nil => intro buf hterm _; simp [hasTerminal] at hterm
  | cons f rest ih =>
    intro buf hterm hlen
    have hpos : 1 ≤ (takeFrame (f :: rest)).length := by
      by_cases hf : f.eofc = 0 <;> simp [takeFrame, hf]
    have hblt : buf.length < cap := by omega
    by_cases hf : f.eofc = 0
    · have hterm2 : hasTerminal rest = true := by
        simp only [hasTerminal, List.any_cons, Bool.or_eq_true] at hterm
        rcases hterm with hterm | hterm
        · simp [hf] at hterm
        · simpa [hasTerminal] using hterm
      have htf : takeFrame (f :: rest) = f :: takeFrame rest := by simp [takeFrame, hf]
      rw [assembleIngress, if_pos hblt]
      simp only [hf, beq_self_eq_true, if_true]
      rw [ih (buf ++ [f]) hterm2 (by rw [htf] at hlen; simp at hlen ⊢; omega)]
      rw [htf]
      simp [dropFrame, hf, List.append_assoc]
    · rw [assembleIngress, if_pos hblt]
      have : (f.eofc == 0) = false := by simp [hf]
      rw [this]
      simp [takeFrame, dropFrame, hf]

/-- C9: the protocol constants have exactly the specified values, the
frame size is two header flits plus `BurstSize/8` body flits, and the
buffer capacity used by `ForwardFrame64` and `AssembleFrame64` equals
`SmiMemFrame64Size = 34`. -/
theorem c9_protocol_constants :
    SmiMemWriteReq = 0x01 ∧ SmiMemWriteResp = 0xFE ∧ SmiMemReadReq = 0x02 ∧
    SmiMemReadResp = 0xFD ∧ DefaultOptions = 0x00 ∧ MemOptUnbuffered = 0x01 ∧
    SmiMemBurstSize = 256 ∧ SmiMemInFlightLimit = 4 ∧
    SmiMemFrame64Size = 34 ∧ SmiMemFrame64Size = 2 + SmiMemBurstSize / 8 ∧
    frameBufferCapacity = SmiMemFrame64Size := by
  decide

/-- C10: `ForwardFrame64` and `AssembleFrame64` compute the same
input/output function.  For any input whose first frame is complete and
at most 34 flits long: `AssembleFrame64` outputs exactly the frame and
consumes exactly its flits; every completed run of `ForwardFrame64`,
under any interleaving of its two loops, does the same; and the
alternating schedule is a completing run of `ForwardFrame64`. -/
theorem c10_forward_assemble_equivalent (input : List Flit64)
    (hterm : hasTerminal input = true) (hlen : (takeFrame input).length ≤ 34) :
    AssembleFrame64 input = some (takeFrame input, dropFrame input) ∧
    (∀ sched : List Bool, (ForwardFrame64 sched input).outDone = true →
      (ForwardFrame64 sched input).out = takeFrame input ∧
      (ForwardFrame64 sched input).inp = dropFrame input) ∧
    (ForwardFrame64 (altSched (takeFrame input).length) input).outDone = true := by
  refine ⟨?_, ?_, ?_⟩
  · rw [AssembleFrame64, assembleIngress_eq frameBufferCapacity input [] hterm (by simpa using hlen)]
    simp [drainFrame64_eq_takeFrame, takeFrame_idem]
  · intro sched hdone
    have hinv := fwdInv_run frameBufferCapacity input sched (fwdInit input) (fwdInv_init input)
    obtain ⟨-, -, h3, h4⟩ := hinv
    obtain ⟨hid, -, hout⟩ := h4 hdone
    exact ⟨hout, (h3 hid).2⟩
  · rw [ForwardFrame64, show fwdInit input = ⟨input, [], [], false, false⟩ from rfl,
      fwd_altSched_completes frameBufferCapacity (by decide) input [] hterm]

-- Concrete single-flit frames used as test vectors.

def flitA : Flit64 := ⟨fun _ => 1, 1⟩

def flitB : Flit64 := ⟨fun _ => 2, 1⟩

def flitC : Flit64 := ⟨fun _ => 3, 1⟩

def flitD : Flit64 := ⟨fun _ => 4, 1⟩

/-- C10 witness: the equivalence applied to a concrete one-flit frame. -/
theorem c10_forward_assemble_equivalent_witness :
    hasTerminal [flitC] = true ∧ (takeFrame [flitC]).length ≤ 34 ∧
    AssembleFrame64 [flitC] = some (takeFrame [flitC], dropFrame [flitC]) :=
  ⟨by decide, by decide, (c10_forward_assemble_equivalent [flitC] (by decide) (by decide)).1⟩

/-- C8 counterexample: the relays are one-shot, not persistent.  On the
two-frame input `[flitA, flitB]`, `AssembleFrame64` returns after the
first frame with `[flitB]` unread and not forwarded, and `ForwardFrame64`
reaches both loop exits (the routine returns) with `[flitB]` still on its
input and only `[flitA]` on its output — it does not go back to read the
next frame. -/
theorem c8_counterexample :
    AssembleFrame64 [flitA, flitB] = some ([flitA], [flitB]) ∧
    ForwardFrame64 [true, false, true, false] [flitA, flitB] =
      ⟨[flitB], [], [flitA], true, true⟩ ∧
    [flitA] ≠ [flitA, flitB] := by
  refine ⟨by decide, by decide, by decide⟩

/-- C8 amended: `ForwardFrame64` and `AssembleFrame64` each relay exactly
one complete frame and then return.  For any input whose first frame is
complete and fits the buffer, `AssembleFrame64` outputs the first frame
and leaves the rest of the input unread, and in every run of
`ForwardFrame64` the ingress loop, once exited, has consumed exactly the
first frame, while the egress loop, once exited, has written exactly the
first frame. -/
theorem c8_single_frame_relay (input : List Flit64)
    (hterm : hasTerminal input = true) (hlen : (takeFrame input).length ≤ 34) :
    AssembleFrame64 input = some (takeFrame input, dropFrame input) ∧
    ∀ sched : List Bool,
      ((ForwardFrame64 sched input).inDone = true →
        (ForwardFrame64 sched input).inp = dropFrame input) ∧
      ((ForwardFrame64 sched input).outDone = true →
        (ForwardFrame64 sched input).out = takeFrame input) := by
  constructor
  · rw [AssembleFrame64, assembleIngress_eq frameBufferCapacity input [] hterm (by simpa using hlen)]
    simp [drainFrame64_eq_takeFrame, takeFrame_idem]
  · intro sched
    have hinv := fwdInv_run frameBufferCapacity input sched (fwdInit input) (fwdInv_init input)
    obtain ⟨-, -, h3, h4⟩ := hinv
    exact ⟨fun hid => (h3 hid).2, fun hod => (h4 hod).2.2⟩

/-- C8 amended witness: one-shot behaviour at a concrete one-flit frame. -/
theorem c8_single_frame_relay_witness :
    hasTerminal [flitD] = true ∧ (takeFrame [flitD]).length ≤ 34 ∧
    AssembleFrame64 [flitD] = some (takeFrame [flitD], dropFrame [flitD]) :=
  ⟨by decide, by decide, (c8_single_frame_relay [flitD] (by decide) (by decide)).1⟩

/-!
manageUpstreamPort (src/smi/arbitrate.go lines 26-89).  The routine runs
two concurrent flows sharing the tag fifo (a channel of capacity 4) and
the two tag tables (`[4]uint8` arrays).  Body flits do not touch the
shared state, so interleavings at frame granularity capture every
behaviour of that state: we model one iteration of the request goroutine
and one iteration of the response loop as functions from the shared state
and the respective input stream.
-/

/-- Outcome of one iteration of a flow: it completes, it blocks forever
on a channel operation, or it hits a Go runtime fault (array index out of
range). -/
inductive PMRes (α : Type) where
  | ok : α → PMRes α
  | block : PMRes α
  | fault : PMRes α
deriving DecidableEq

/-- The shared state of one Port Manager: the two tag tables (`[4]uint8`,
zero-initialised by Go) and the contents of the tag fifo channel. -/
structure PMState where
  tagTableLower : List Nat
  tagTableUpper : List Nat
  tagFifo : List Nat
deriving DecidableEq

/-- State at startup: zeroed tables, fifo preloaded with tags 0,1,2,3
(the `tagInit` loop at lines 42-44). -/
def pmInit : PMState := ⟨[0, 0, 0, 0], [0, 0, 0, 0], [0, 1, 2, 3]⟩

/-- One iteration of the request goroutine (lines 47-68): read a header
flit, lease a tag from the fifo (blocking if empty), save the header's
bytes 2 and 3 into the tag tables at the leased index (a Go array write,
which faults if the index is out of range), overwrite byte 2 with the
port id and byte 3 with the tag, then copy the body flits unmodified.
Returns the new shared state, the flits sent on `taggedRequest`, and the
unread remainder of the upstream request stream.  The `transferReq`
signal (just the port id, sent before the header) is not represented. -/
def manageUpstreamPortReq (portId : Nat) (s : PMState) :
    List Flit64 → PMRes (PMState × List Flit64 × List Flit64)
  | [] => .block
  | h :: rest =>
    match s.tagFifo with
    | [] => .block
    | tagId :: fifoRest =>
      if tagId < 4 then
        let s2 : PMState :=
          ⟨s.tagTableLower.set tagId (h.data 2),
           s.tagTableUpper.set tagId (h.data 3), fifoRest⟩
        let h2 : Flit64 := ⟨Function.update (Function.update h.data 2 portId) 3 tagId, h.eofc⟩
        if h.eofc == 0 then
          let p := readFrame64 rest
          .ok (s2, h2 :: p.1, p.2)
        else .ok (s2, [h2], rest)
      else .fault

/-- One iteration of the response loop (lines 71-88): read a header flit
from `taggedResponse`, use its byte 3 as the index into both tag tables
(a Go array read, which faults when the byte is 4 or more), restore the
saved bytes into positions 2 and 3, return the tag to the fifo (a send on
a capacity-4 channel, which blocks if the fifo is full), then copy the
body flits unmodified.  Returns the new shared state, the flits sent on
`upstreamResponse`, and the unread remainder of the tagged response
stream. -/
def manageUpstreamPortResp (s : PMState) :
    List Flit64 → PMRes (PMState × List Flit64 × List Flit64)
  | [] => .block
  | h :: rest =>
    match s.tagTableLower[h.data 3]?, s.tagTableUpper[h.data 3]? with
    | some lo, some hi =>
      if s.tagFifo.length < 4 then
        let s2 : PMState :=
          ⟨s.tagTableLower, s.tagTableUpper, s.tagFifo ++ [h.data 3]⟩
        let h2 : Flit64 := ⟨Function.update (Function.update h.data 2 lo) 3 hi, h.eofc⟩
        if h.eofc == 0 then
          let p := readFrame64 rest
          .ok (s2, h2 :: p.1, p.2)
        else .ok (s2, [h2], rest)
      else .block
    | _, _ => .fault

/-- Ghost record of one in-flight transaction: the leased tag and the
original header bytes 2 and 3 that the request flow overwrote. -/
structure Lease where
  tag : Nat
  lo : Nat
  hi : Nat
deriving DecidableEq

/-- A Port Manager state paired with the list of currently in-flight
transactions (specification-side bookkeeping; not part of the code). -/
structure PMGhost where
  st : PMState
  leased : List Lease
deriving DecidableEq

def pmGhostInit : PMGhost := ⟨pmInit, []⟩

/-- Reachable ghost states of one Port Manager under frame-granularity
interleaving of its two flows.  Request steps may carry any header;
response steps are restricted to responses that match an in-flight
request (same tag), which is the conformance assumption the protocol
places on the downstream side. -/
inductive PMReach (portId : Nat) : PMGhost → Prop where
  | init : PMReach portId pmGhostInit
  | req (g : PMGhost) (h : Flit64) (rest : List Flit64) (t : Nat) (fifoRest : List Nat)
      (s2 : PMState) (out rem : List Flit64) :
      PMReach portId g →
      g.st.tagFifo = t :: fifoRest →
      manageUpstreamPortReq portId g.st (h :: rest) = .ok (s2, out, rem) →
      PMReach portId ⟨s2, g.leased ++ [⟨t, h.data 2, h.data 3⟩]⟩
  | resp (g : PMGhost) (h : Flit64) (rest : List Flit64) (e : Lease)
      (s2 : PMState) (out rem : List Flit64) :
      PMReach portId g →
      e ∈ g.leased → e.tag = h.data 3 →
      manageUpstreamPortResp g.st (h :: rest) = .ok (s2, out, rem) →
      PMReach portId ⟨s2, g.leased.filter (fun x => x.tag != h.data 3)⟩

/-- Invariant of a Port Manager: the tag tables keep their length 4, the
fifo contents and the leased tags together are a permutation of the tag
pool 0..3, and for every in-flight transaction the tables hold exactly
the original bytes saved by its request. -/
def PMInv (g : PMGhost) : Prop :=
  g.st.tagTableLower.length = 4 ∧
  g.st.tagTableUpper.length = 4 ∧
  List.Perm (g.st.tagFifo ++ g.leased.map Lease.tag) [0, 1, 2, 3] ∧
  ∀ e ∈ g.leased,
    g.st.tagTableLower[e.tag]? = some e.lo ∧ g.st.tagTableUpper[e.tag]? = some e.hi

theorem filter_ne_of_not_mem (tv : Nat) :
    ∀ ms : List Nat, tv ∉ ms → ms.filter (fun x => x != tv) = ms := by
  intro ms
  induction ms with
  | nil => intro _; rfl
  | cons a ms2 ih =>
    intro hnm
    have ha : a ≠ tv := fun hc => hnm (hc ▸ List.mem_cons_self a ms2)
    have : (a != tv) = true := by simpa using ha
    simp only [List.filter_cons, this, if_true]
    rw [ih (fun hc => hnm (List.mem_cons_of_mem a hc))]

theorem perm_cons_filter_ne (tv : Nat) :
    ∀ ms : List Nat, ms.Nodup → tv ∈ ms →
      List.Perm (tv :: ms.filter (fun x => x != tv)) ms := by
  intro ms
  induction ms with
  | nil => intro _ hm; simp at hm
  | cons a ms2 ih =>
    intro hnd hm
    rcases List.mem_cons.mp hm with rfl | hm2
    · have hnm : tv ∉ ms2 := (List.nodup_cons.mp hnd).1
      have hcond : ¬((tv != tv) = true) := by simp
      rw [List.filter_cons, if_neg hcond, filter_ne_of_not_mem tv ms2 hnm]
    · have ha : a ≠ tv := by
        rintro rfl
        exact (List.nodup_cons.mp hnd).1 hm2
      have hcond : (a != tv) = true := by simpa using ha
      rw [List.filter_cons, if_pos hcond]
      exact (List.Perm.swap a tv _).trans
        (List.Perm.cons a (ih (List.nodup_cons.mp hnd).2 hm2))

theorem map_tag_filter (tv : Nat) :
    ∀ L : List Lease, (L.filter (fun x => x.tag != tv)).map Lease.tag =
      (L.map Lease.tag).filter (fun x => x != tv) := by
  intro L
  induction L with
  | nil => rfl
  | cons e L2 ih =>
    simp only [List.filter_cons, List.map_cons]
    by_cases he : (e.tag != tv) = true
    · simp only [he, if_true, List.map_cons, ih]
    · simp only [Bool.not_eq_true] at he
      simp only [he, Bool.false_eq_true, if_false, ih]

/-- The fifo cannot be full while a transaction is in flight, so the
response flow's fifo send never blocks on conforming traffic. -/
theorem pm_fifo_lt (g : PMGhost) (e : Lease)
    (hperm : List.Perm (g.st.tagFifo ++ g.leased.map Lease.tag) [0, 1, 2, 3])
    (he : e ∈ g.leased) : g.st.tagFifo.length < 4 := by
  have hlen := hperm.length_eq
  rw [List.length_append, List.length_map,
    show ([0, 1, 2, 3] : List Nat).length = 4 from rfl] at hlen
  have hpos : 0 < g.leased.length := List.length_pos_of_mem he
  omega

theorem pmInv_req (portId : Nat) (g : PMGhost) (h : Flit64) (rest : List Flit64)
    (t : Nat) (fifoRest : List Nat) (s2 : PMState) (out rem : List Flit64)
    (hinv : PMInv g) (hfifo : g.st.tagFifo = t :: fifoRest)
    (hok : manageUpstreamPortReq portId g.st (h :: rest) = .ok (s2, out, rem)) :
    PMInv ⟨s2, g.leased ++ [⟨t, h.data 2, h.data 3⟩]⟩ := by
  obtain ⟨hl, hu, hperm, htab⟩ := hinv
  rw [hfifo] at hperm
  simp only [manageUpstreamPortReq, hfifo] at hok
  by_cases ht : t < 4
  swap
  · rw [if_neg ht] at hok; cases hok
  rw [if_pos ht] at hok
  have hs2 : s2 = ⟨g.st.tagTableLower.set t (h.data 2),
      g.st.tagTableUpper.set t (h.data 3), fifoRest⟩ := by
    split at hok <;>
    · simp only [PMRes.ok.injEq, Prod.mk.injEq] at hok
      exact hok.1.symm
  subst hs2
  have hnd : ((t :: fifoRest) ++ g.leased.map Lease.tag).Nodup :=
    hperm.symm.nodup (by decide)
  rw [List.cons_append, List.nodup_cons] at hnd
  have htn : t ∉ fifoRest ++ g.leased.map Lease.tag := hnd.1
  refine ⟨by simpa using hl, by simpa using hu, ?_, ?_⟩
  · show List.Perm (fifoRest ++ (g.leased ++ [(⟨t, h.data 2, h.data 3⟩ : Lease)]).map Lease.tag) _
    rw [List.map_append]
    show List.Perm (fifoRest ++ (g.leased.map Lease.tag ++ [t])) _
    rw [← List.append_assoc]
    exact ((List.perm_append_singleton t _).trans
      (by rw [← List.cons_append]; exact hperm))
  · intro e he
    rcases List.mem_append.mp he with he | he
    · have hne : t ≠ e.tag := by
        intro hc
        exact htn (List.mem_append.mpr (Or.inr (hc ▸ List.mem_map_of_mem Lease.tag he)))
      obtain ⟨hlo, hhi⟩ := htab e he
      constructor
      · show (g.st.tagTableLower.set t (h.data 2))[e.tag]? = some e.lo
        rw [List.getElem?_set_ne hne]; exact hlo
      · show (g.st.tagTableUpper.set t (h.data 3))[e.tag]? = some e.hi
        rw [List.getElem?_set_ne hne]; exact hhi
    · simp only [List.mem_singleton] at he
      subst he
      constructor
      · show (g.st.tagTableLower.set t (h.data 2))[t]? = some (h.data 2)
        exact List.getElem?_set_self (by rw [hl]; exact ht)
      · show (g.st.tagTableUpper.set t (h.data 3))[t]? = some (h.data 3)
        exact List.getElem?_set_self (by rw [hu]; exact ht)

theorem pmInv_resp (g : PMGhost) (h : Flit64) (rest : List Flit64) (e : Lease)
    (s2 : PMState) (out rem : List Flit64) (hinv : PMInv g)
    (he : e ∈ g.leased) (htag : e.tag = h.data 3)
    (hok : manageUpstreamPortResp g.st (h :: rest) = .ok (s2, out, rem)) :
    PMInv ⟨s2, g.leased.filter (fun x => x.tag != h.data 3)⟩ := by
  obtain ⟨hl, hu, hperm, htab⟩ := hinv
  obtain ⟨hlo, hhi⟩ := htab e he
  rw [htag] at hlo hhi
  simp only [manageUpstreamPortResp, hlo, hhi] at hok
  rw [if_pos (pm_fifo_lt g e hperm he)] at hok
  have hs2 : s2 = ⟨g.st.tagTableLower, g.st.tagTableUpper,
      g.st.tagFifo ++ [h.data 3]⟩ := by
    split at hok <;>
    · simp only [PMRes.ok.injEq, Prod.mk.injEq] at hok
      exact hok.1.symm
  subst hs2
  have hndm : (g.leased.map Lease.tag).Nodup :=
    (List.nodup_append.mp (hperm.symm.nodup (by decide))).2.1
  have htv : h.data 3 ∈ g.leased.map Lease.tag :=
    htag ▸ List.mem_map_of_mem Lease.tag he
  refine ⟨hl, hu, ?_, ?_⟩
  · show List.Perm ((g.st.tagFifo ++ [h.data 3]) ++
      (g.leased.filter (fun x => x.tag != h.data 3)).map Lease.tag) _
    rw [map_tag_filter, List.append_assoc, List.singleton_append]
    exact (List.Perm.append_left g.st.tagFifo
      (perm_cons_filter_ne (h.data 3) _ hndm htv)).trans hperm
  · intro e2 he2
    exact htab e2 (List.mem_of_mem_filter he2)

theorem pmReach_inv (portId : Nat) (g : PMGhost) (hr : PMReach portId g) : PMInv g := by
  induction hr with
  | init =>
    refine ⟨rfl, rfl, by simp [pmGhostInit, pmInit], ?_⟩
    intro e he
    simp [pmGhostInit] at he
  | req g h rest t fifoRest s2 out rem hr hfifo hok ih =>
    exact pmInv_req _ g h rest t fifoRest s2 out rem ih hfifo hok
  | resp g h rest e s2 out rem hr he htag hok ih =>
    exact pmInv_resp g h rest e s2 out rem ih he htag hok

/-- C1: tag round-trip.  In every reachable state of a Port Manager,
when the response flow processes a response frame whose tag (header byte
3) matches an in-flight transaction, the header it delivers on the
upstream response channel carries at offsets 2 and 3 exactly the bytes
recorded for that transaction — by construction of `PMReach.req`, the
original bytes present in the request's header before substitution.
This holds for every entry of `g.leased`, i.e. for all 4 concurrently
in-flight transactions of the port. -/
theorem c1_tag_roundtrip (portId : Nat) (g : PMGhost) (hreach : PMReach portId g)
    (h : Flit64) (rest : List Flit64) (e : Lease)
    (he : e ∈ g.leased) (htag : e.tag = h.data 3)
    (s2 : PMState) (out rem : List Flit64)
    (hok : manageUpstreamPortResp g.st (h :: rest) = .ok (s2, out, rem)) :
    ∃ h2 : Flit64, out.head? = some h2 ∧
      h2.data 2 = e.lo ∧ h2.data 3 = e.hi ∧ h2.eofc = h.eofc := by
  obtain ⟨hl, hu, hperm, htab⟩ := pmReach_inv portId g hreach
  obtain ⟨hlo, hhi⟩ := htab e he
  rw [htag] at hlo hhi
  simp only [manageUpstreamPortResp, hlo, hhi] at hok
  rw [if_pos (pm_fifo_lt g e hperm he)] at hok
  have hd2 : (Function.update (Function.update h.data 2 e.lo) 3 e.hi) 2 = e.lo := by
    rw [Function.update_noteq (by decide), Function.update_same]
  have hd3 : (Function.update (Function.update h.data 2 e.lo) 3 e.hi) 3 = e.hi := by
    rw [Function.update_same]
  refine ⟨⟨Function.update (Function.update h.data 2 e.lo) 3 e.hi, h.eofc⟩, ?_, hd2, hd3, rfl⟩
  split at hok <;>
  · simp only [PMRes.ok.injEq, Prod.mk.injEq] at hok
    rw [← hok.2.1]
    rfl

-- Concrete reachable ghost state used by the C1 witness: one request
-- with header bytes 7 everywhere has leased tag 0.

def reqHdr : Flit64 := ⟨fun _ => 7, 1⟩

def pmS1 : PMState := ⟨[7, 0, 0, 0], [7, 0, 0, 0], [1, 2, 3]⟩

def pmG1 : PMGhost := ⟨pmS1, [⟨0, 7, 7⟩]⟩

theorem pmG1_reach : PMReach 1 pmG1 := by
  have hstep := @PMReach.req 1 pmGhostInit reqHdr [] 0 [1, 2, 3] pmS1
    [⟨Function.update (Function.update reqHdr.data 2 1) 3 0, reqHdr.eofc⟩] []
    PMReach.init rfl (by decide)
  exact (show (⟨pmS1, [] ++ [⟨0, reqHdr.data 2, reqHdr.data 3⟩]⟩ : PMGhost) = pmG1 by
    decide) ▸ hstep

def respHdr : Flit64 := ⟨fun _ => 0, 2⟩

def pmS2 : PMState := ⟨[7, 0, 0, 0], [7, 0, 0, 0], [1, 2, 3, 0]⟩

def respOut : List Flit64 := [⟨Function.update (Function.update respHdr.data 2 7) 3 7, 2⟩]

/-- C1 witness: a concrete request/response round trip through tag 0
restores the original header bytes (7, 7). -/
theorem c1_tag_roundtrip_witness :
    (⟨0, 7, 7⟩ : Lease) ∈ pmG1.leased ∧
    ∃ h2 : Flit64, respOut.head? = some h2 ∧
      h2.data 2 = 7 ∧ h2.data 3 = 7 ∧ h2.eofc = respHdr.eofc :=
  ⟨by decide, c1_tag_roundtrip 1 pmG1 pmG1_reach respHdr [] ⟨0, 7, 7⟩ (by decide)
    (by decide) pmS2 respOut [] (by decide)⟩

/-- C3: in-flight bound and tag uniqueness.  The tag pool starts as
exactly 0,1,2,3; a request arriving while the pool is empty (4 requests
in flight) blocks; a matching response returns its tag to the pool; and
in every reachable state the in-flight tags are pairwise distinct, at
most 4 transactions are in flight, and the tag about to be leased next is
held by no in-flight transaction, so a tag is never re-issued before the
response flow returns it. -/
theorem c3_inflight_bound :
    pmInit.tagFifo = [0, 1, 2, 3] ∧
    (∀ (portId : Nat) (s : PMState) (h : Flit64) (rest : List Flit64),
      s.tagFifo = [] → manageUpstreamPortReq portId s (h :: rest) = PMRes.block) ∧
    (∀ (portId : Nat) (g : PMGhost), PMReach portId g →
      ∀ (h : Flit64) (rest : List Flit64) (e : Lease) (s2 : PMState)
        (out rem : List Flit64),
        e ∈ g.leased → e.tag = h.data 3 →
        manageUpstreamPortResp g.st (h :: rest) = PMRes.ok (s2, out, rem) →
        s2.tagFifo = g.st.tagFifo ++ [h.data 3]) ∧
    (∀ (portId : Nat) (g : PMGhost), PMReach portId g →
      (g.leased.map Lease.tag).Nodup ∧ g.leased.length ≤ 4 ∧
      ∀ (t : Nat) (fifoRest : List Nat), g.st.tagFifo = t :: fifoRest →
        t ∉ g.leased.map Lease.tag) := by
  refine ⟨rfl, ?_, ?_, ?_⟩
  · intro portId s h rest hfifo
    simp [manageUpstreamPortReq, hfifo]
  · intro portId g hreach h rest e s2 out rem he htag hok
    obtain ⟨hl, hu, hperm, htab⟩ := pmReach_inv portId g hreach
    obtain ⟨hlo, hhi⟩ := htab e he
    rw [htag] at hlo hhi
    simp only [manageUpstreamPortResp, hlo, hhi] at hok
    rw [if_pos (pm_fifo_lt g e hperm he)] at hok
    split at hok <;>
    · simp only [PMRes.ok.injEq, Prod.mk.injEq] at hok
      rw [← hok.1]
  · intro portId g hreach
    obtain ⟨hl, hu, hperm, -⟩ := pmReach_inv portId g hreach
    have hnd := hperm.symm.nodup (by decide)
    obtain ⟨hnf, hnm, hdisj⟩ := List.nodup_append.mp hnd
    refine ⟨hnm, ?_, ?_⟩
    · have hlen := hperm.length_eq
      rw [List.length_append, List.length_map,
        show ([0, 1, 2, 3] : List Nat).length = 4 from rfl] at hlen
      omega
    · intro t fifoRest hfifo hmem
      exact hdisj (by rw [hfifo]; exact List.mem_cons_self t fifoRest) hmem

/-- C3 witness: with the fifo empty a further request blocks, and the
concrete reachable state `pmG1` satisfies the uniqueness facts. -/
theorem c3_inflight_bound_witness :
    manageUpstreamPortReq 2 ⟨[0, 0, 0, 0], [0, 0, 0, 0], []⟩ [⟨fun _ => 0, 1⟩] = PMRes.block ∧
    ((pmG1.leased.map Lease.tag).Nodup ∧ pmG1.leased.length ≤ 4 ∧
      ∀ (t : Nat) (fifoRest : List Nat), pmG1.st.tagFifo = t :: fifoRest →
        t ∉ pmG1.leased.map Lease.tag) :=
  ⟨c3_inflight_bound.2.1 2 ⟨[0, 0, 0, 0], [0, 0, 0, 0], []⟩ ⟨fun _ => 0, 1⟩ [] rfl,
   c3_inflight_bound.2.2.2 1 pmG1 pmG1_reach⟩

/-- C6: for every request header forwarded downstream, byte 2 becomes
the port id and byte 3 the leased tag; all other header bytes, the
completion code, and every body flit of the frame (up to and including
the flit with nonzero completion code) are forwarded unmodified. -/
theorem c6_request_header_rewrite (portId : Nat) (s : PMState) (h : Flit64)
    (rest : List Flit64) (t : Nat) (fifoRest : List Nat)
    (hfifo : s.tagFifo = t :: fifoRest) (ht : t < 4) :
    manageUpstreamPortReq portId s (h :: rest) =
      PMRes.ok (⟨s.tagTableLower.set t (h.data 2), s.tagTableUpper.set t (h.data 3), fifoRest⟩,
        ⟨Function.update (Function.update h.data 2 portId) 3 t, h.eofc⟩ ::
          (if h.eofc = 0 then takeFrame rest else []),
        if h.eofc = 0 then dropFrame rest else rest) ∧
    Function.update (Function.update h.data 2 portId) 3 t 2 = portId ∧
    Function.update (Function.update h.data 2 portId) 3 t 3 = t ∧
    (∀ i : Fin 8, i ≠ 2 → i ≠ 3 →
      Function.update (Function.update h.data 2 portId) 3 t i = h.data i) := by
  refine ⟨?_, ?_, ?_, ?_⟩
  · simp only [manageUpstreamPortReq, hfifo]
    rw [if_pos ht]
    by_cases he : h.eofc = 0
    · simp [he, readFrame64_eq]
    · simp [he, readFrame64_eq]
  · rw [Function.update_noteq (by decide), Function.update_same]
  · rw [Function.update_same]
  · intro i hi2 hi3
    rw [Function.update_noteq hi3, Function.update_noteq hi2]

def flitE : Flit64 := ⟨fun _ => 9, 3⟩

/-- C6 witness: the rewrite applied to a concrete single-flit request in
the initial state. -/
theorem c6_request_header_rewrite_witness :
    manageUpstreamPortReq 2 pmInit [flitE] =
      PMRes.ok (⟨pmInit.tagTableLower.set 0 (flitE.data 2),
          pmInit.tagTableUpper.set 0 (flitE.data 3), [1, 2, 3]⟩,
        ⟨Function.update (Function.update flitE.data 2 2) 3 0, flitE.eofc⟩ ::
          (if flitE.eofc = 0 then takeFrame [] else []),
        if flitE.eofc = 0 then dropFrame [] else []) :=
  (c6_request_header_rewrite 2 pmInit flitE [] 0 [1, 2, 3] rfl (by decide)).1

def badResp : Flit64 := ⟨fun _ => 4, 1⟩

/-- C7 counterexample: the claim that no input can reach a runtime fault
is false.  A response header whose offset-3 tag byte is 4 — a tag that
was never issued — makes the Go code index the 4-entry tag tables out of
bounds (`tagTableLower[tagId]` with `tagId = 4`), a runtime panic,
modelled here as `PMRes.fault`. -/
theorem c7_counterexample :
    manageUpstreamPortResp pmInit [badResp] = PMRes.fault := by decide

/-- C7 amended: there is no explicit panic path, and as long as a
response header's offset-3 byte is below 4 — in particular for every tag
the port actually issued — the tag-table lookups stay in bounds and no
runtime fault occurs; likewise the request flow never faults from any
reachable state.  (A malformed response with tag byte 4 or more does
fault; see the counterexample.) -/
theorem c7_bounded_tag_safety :
    (∀ (s : PMState) (h : Flit64) (rest : List Flit64),
      h.data 3 < 4 → s.tagTableLower.length = 4 → s.tagTableUpper.length = 4 →
      manageUpstreamPortResp s (h :: rest) ≠ PMRes.fault) ∧
    (∀ (portId : Nat) (g : PMGhost), PMReach portId g →
      ∀ (h : Flit64) (rest : List Flit64),
        manageUpstreamPortReq portId g.st (h :: rest) ≠ PMRes.fault) := by
  constructor
  · intro s h rest hlt hl hu
    obtain ⟨lo, hlo⟩ : ∃ lo, s.tagTableLower[h.data 3]? = some lo :=
      ⟨_, List.getElem?_eq_getElem (by rw [hl]; exact hlt)⟩
    obtain ⟨hi, hhi⟩ : ∃ hi, s.tagTableUpper[h.data 3]? = some hi :=
      ⟨_, List.getElem?_eq_getElem (by rw [hu]; exact hlt)⟩
    simp only [manageUpstreamPortResp, hlo, hhi]
    by_cases hlen : s.tagFifo.length < 4
    · rw [if_pos hlen]
      split <;> (intro hc; cases hc)
    · rw [if_neg hlen]
      intro hc; cases hc
  · intro portId g hreach h rest
    obtain ⟨hl, hu, hperm, -⟩ := pmReach_inv portId g hreach
    cases hfifo : g.st.tagFifo with
    | nil =>
      simp only [manageUpstreamPortReq, hfifo]
      intro hc; cases hc
    | cons t fifoRest =>
      have ht : t < 4 := by
        have hmem : t ∈ g.st.tagFifo ++ g.leased.map Lease.tag := by
          rw [hfifo]
          exact List.mem_append.mpr (Or.inl (List.mem_cons_self t fifoRest))
        have hin := hperm.mem_iff.mp hmem
        simp at hin
        omega
      simp only [manageUpstreamPortReq, hfifo]
      rw [if_pos ht]
      split <;> (intro hc; cases hc)

/-- C7 amended witness: a well-formed response with tag byte 0 does not
fault in the initial state. -/
theorem c7_bounded_tag_safety_witness :
    (⟨fun _ => 0, 1⟩ : Flit64).data 3 < 4 ∧
    manageUpstreamPortResp pmInit [⟨fun _ => 0, 1⟩] ≠ PMRes.fault :=
  ⟨by decide, c7_bounded_tag_safety.1 pmInit ⟨fun _ => 0, 1⟩ [] (by decide) rfl rfl⟩

/-!
Arbiter request side (ArbitrateX2 lines 120-144, ArbitrateX3 lines
202-229, ArbitrateX4 lines 296-326).  Each iteration selects a port id
from the transfer-request channels (the select outcome is the scheduler's
nondeterministic choice, modelled as a list of chosen port ids) and then
copies one complete frame from that port's tagged-request queue to the
shared downstream channel.  The downstream flits are annotated with the
queue they were read from, so that frame atomicity can be stated; the
real channel carries only the flits.
-/

def arbReqRunX2 (qA qB : List Flit64) : List Nat → List (Nat × Flit64)
  | [] => []
  | p :: sched =>
    if p = 1 then
      ((readFrame64 qA).1.map fun f => (1, f)) ++ arbReqRunX2 (readFrame64 qA).2 qB sched
    else
      ((readFrame64 qB).1.map fun f => (2, f)) ++ arbReqRunX2 qA (readFrame64 qB).2 sched

def arbReqRunX3 (qA qB qC : List Flit64) : List Nat → List (Nat × Flit64)
  | [] => []
  | p :: sched =>
    if p = 1 then
      ((readFrame64 qA).1.map fun f => (1, f)) ++ arbReqRunX3 (readFrame64 qA).2 qB qC sched
    else if p = 2 then
      ((readFrame64 qB).1.map fun f => (2, f)) ++ arbReqRunX3 qA (readFrame64 qB).2 qC sched
    else
      ((readFrame64 qC).1.map fun f => (3, f)) ++ arbReqRunX3 qA qB (readFrame64 qC).2 sched

def arbReqRunX4 (qA qB qC qD : List Flit64) : List Nat → List (Nat × Flit64)
  | [] => []
  | p :: sched =>
    if p = 1 then
      ((readFrame64 qA).1.map fun f => (1, f)) ++ arbReqRunX4 (readFrame64 qA).2 qB qC qD sched
    else if p = 2 then
      ((readFrame64 qB).1.map fun f => (2, f)) ++ arbReqRunX4 qA (readFrame64 qB).2 qC qD sched
    else if p = 3 then
      ((readFrame64 qC).1.map fun f => (3, f)) ++ arbReqRunX4 qA qB (readFrame64 qC).2 qD sched
    else
      ((readFrame64 qD).1.map fun f => (4, f)) ++ arbReqRunX4 qA qB qC (readFrame64 qD).2 sched

/-- Frame-atomicity checker over the annotated downstream stream: while
inside a frame (state `some p`), every flit must come from port `p`; a
flit with nonzero completion code resets the state. -/
def checkAtomic : Option Nat → List (Nat × Flit64) → Bool
  | _, [] => true
  | cur, pf :: rest =>
    (match cur with
     | none => true
     | some q => pf.1 == q) &&
    checkAtomic (if pf.2.eofc == 0 then some pf.1 else none) rest

theorem streamWF_true_ne_nil (q : List Flit64) (h : streamWF true q = true) : q ≠ [] := by
  cases q with
  | nil => simp [streamWF] at h
  | cons f rest => exact List.cons_ne_nil f rest

/-- A well-formed stream starts with a complete frame, and dropping that
frame leaves a well-formed stream. -/
theorem streamWF_frame : ∀ (q : List Flit64) (b : Bool), streamWF b q = true → q ≠ [] →
    IsFrameB (takeFrame q) = true ∧ streamWF false (dropFrame q) = true := by
  intro q
  induction q with
  | nil => intro b _ hne; exact absurd rfl hne
  | cons f rest ih =>
    intro b hwf _
    have hs : streamWF (f.eofc == 0) rest = true := hwf
    by_cases hf : f.eofc = 0
    · have hc : (f.eofc == 0) = true := by simpa using hf
      rw [hc] at hs
      have hrne : rest ≠ [] := streamWF_true_ne_nil rest hs
      obtain ⟨hfr, hdrop⟩ := ih true hs hrne
      have htf : takeFrame (f :: rest) = f :: takeFrame rest := by simp [takeFrame, hf]
      have hdf : dropFrame (f :: rest) = dropFrame rest := by simp [dropFrame, hf]
      rw [htf, hdf]
      refine ⟨?_, hdrop⟩
      cases htr : takeFrame rest with
      | nil => exact absurd ((takeFrame_nil_iff rest).mp htr) hrne
      | cons x xs =>
        rw [htr] at hfr
        show IsFrameB (f :: x :: xs) = true
        rw [show IsFrameB (f :: x :: xs) = ((f.eofc == 0) && IsFrameB (x :: xs)) from rfl,
          hc, hfr]
        rfl
    · have hc : (f.eofc == 0) = false := by simpa using hf
      rw [hc] at hs
      have htf : takeFrame (f :: rest) = [f] := by simp [takeFrame, hf]
      have hdf : dropFrame (f :: rest) = rest := by simp [dropFrame, hf]
      rw [htf, hdf]
      exact ⟨by simp [IsFrameB, hf], hs⟩

theorem checkAtomic_cons (cur : Option Nat) (p : Nat) (f : Flit64)
    (rest : List (Nat × Flit64)) :
    checkAtomic cur ((p, f) :: rest) =
      ((match cur with | none => true | some q => p == q) &&
        checkAtomic (if f.eofc == 0 then some p else none) rest) := rfl

/-- Copying one complete frame from port `p` keeps the downstream stream
atomic: the checker passes the frame and resets. -/
theorem checkAtomic_frame (p : Nat) : ∀ (fr : List Flit64), IsFrameB fr = true →
    ∀ (c : Option Nat), (c = none ∨ c = some p) → ∀ tail,
      checkAtomic c (fr.map (fun f => (p, f)) ++ tail) = checkAtomic none tail := by
  intro fr
  induction fr with
  | nil => intro hfr; cases hfr
  | cons f body ih =>
    intro hfr c hc tail
    cases body with
    | nil =>
      have hfne : f.eofc ≠ 0 := by simpa [IsFrameB] using hfr
      have hf0 : (f.eofc == 0) = false := by simpa using hfne
      have hne : ¬((false : Bool) = true) := by decide
      rw [List.map_cons, List.map_nil, List.cons_append, List.nil_append,
        checkAtomic_cons, hf0, if_neg hne]
      rcases hc with rfl | rfl <;> simp
    | cons x xs =>
      have hsplit : f.eofc = 0 ∧ IsFrameB (x :: xs) = true := by
        simpa [IsFrameB] using hfr
      have hc1 : (f.eofc == 0) = true := by simpa using hsplit.1
      rw [List.map_cons, List.cons_append, checkAtomic_cons, hc1, if_pos rfl,
        ih hsplit.2 (some p) (Or.inr rfl) tail]
      rcases hc with rfl | rfl <;> simp

/-- One arbiter step: copying the first frame of a well-formed queue
onto the downstream stream preserves atomicity, and the queue stays
well-formed. -/
theorem arbStep (q : List Flit64) (hq : streamWF false q = true) (p : Nat)
    (tail : List (Nat × Flit64)) :
    checkAtomic none ((readFrame64 q).1.map (fun f => (p, f)) ++ tail) = checkAtomic none tail ∧
    streamWF false (readFrame64 q).2 = true := by
  rw [readFrame64_eq]
  by_cases hq0 : q = []
  · subst hq0
    exact ⟨rfl, rfl⟩
  · obtain ⟨hfr, hdrop⟩ := streamWF_frame q false hq hq0
    exact ⟨checkAtomic_frame p (takeFrame q) hfr none (Or.inl rfl) tail, hdrop⟩

theorem arbX2_atomic : ∀ (sched : List Nat) (qA qB : List Flit64),
    streamWF false qA = true → streamWF false qB = true →
    checkAtomic none (arbReqRunX2 qA qB sched) = true := by
  intro sched
  induction sched with
  | nil => intro qA qB _ _; rfl
  | cons p sched ih =>
    intro qA qB hA hB
    by_cases hp : p = 1
    · rw [show arbReqRunX2 qA qB (p :: sched) =
        (((readFrame64 qA).1.map fun f => (1, f)) ++
          arbReqRunX2 (readFrame64 qA).2 qB sched) from by simp [arbReqRunX2, hp]]
      obtain ⟨hck, hwf⟩ := arbStep qA hA 1 (arbReqRunX2 (readFrame64 qA).2 qB sched)
      rw [hck]
      exact ih _ qB hwf hB
    · rw [show arbReqRunX2 qA qB (p :: sched) =
        (((readFrame64 qB).1.map fun f => (2, f)) ++
          arbReqRunX2 qA (readFrame64 qB).2 sched) from by simp [arbReqRunX2, hp]]
      obtain ⟨hck, hwf⟩ := arbStep qB hB 2 (arbReqRunX2 qA (readFrame64 qB).2 sched)
      rw [hck]
      exact ih qA _ hA hwf

theorem arbX3_atomic : ∀ (sched : List Nat) (qA qB qC : List Flit64),
    streamWF false qA = true → streamWF false qB = true → streamWF false qC = true →
    checkAtomic none (arbReqRunX3 qA qB qC sched) = true := by
  intro sched
  induction sched with
  | nil => intro qA qB qC _ _ _; rfl
  | cons p sched ih =>
    intro qA qB qC hA hB hC
    by_cases hp : p = 1
    · rw [show arbReqRunX3 qA qB qC (p :: sched) =
        (((readFrame64 qA).1.map fun f => (1, f)) ++
          arbReqRunX3 (readFrame64 qA).2 qB qC sched) from by simp [arbReqRunX3, hp]]
      obtain ⟨hck, hwf⟩ := arbStep qA hA 1 (arbReqRunX3 (readFrame64 qA).2 qB qC sched)
      rw [hck]
      exact ih _ qB qC hwf hB hC
    · by_cases hp2 : p = 2
      · rw [show arbReqRunX3 qA qB qC (p :: sched) =
          (((readFrame64 qB).1.map fun f => (2, f)) ++
            arbReqRunX3 qA (readFrame64 qB).2 qC sched) from by simp [arbReqRunX3, hp, hp2]]
        obtain ⟨hck, hwf⟩ := arbStep qB hB 2 (arbReqRunX3 qA (readFrame64 qB).2 qC sched)
        rw [hck]
        exact ih qA _ qC hA hwf hC
      · rw [show arbReqRunX3 qA qB qC (p :: sched) =
          (((readFrame64 qC).1.map fun f => (3, f)) ++
            arbReqRunX3 qA qB (readFrame64 qC).2 sched) from by simp [arbReqRunX3, hp, hp2]]
        obtain ⟨hck, hwf⟩ := arbStep qC hC 3 (arbReqRunX3 qA qB (readFrame64 qC).2 sched)
        rw [hck]
        exact ih qA qB _ hA hB hwf

theorem arbX4_atomic : ∀ (sched : List Nat) (qA qB qC qD : List Flit64),
    streamWF false qA = true → streamWF false qB = true →
    streamWF false qC = true → streamWF false qD = true →
    checkAtomic none (arbReqRunX4 qA qB qC qD sched) = true := by
  intro sched
  induction sched with
  | nil => intro qA qB qC qD _ _ _ _; rfl
  | cons p sched ih =>
    intro qA qB qC qD hA hB hC hD
    by_cases hp : p = 1
    · rw [show arbReqRunX4 qA qB qC qD (p :: sched) =
        (((readFrame64 qA).1.map fun f => (1, f)) ++
          arbReqRunX4 (readFrame64 qA).2 qB qC qD sched) from by simp [arbReqRunX4, hp]]
      obtain ⟨hck, hwf⟩ := arbStep qA hA 1 (arbReqRunX4 (readFrame64 qA).2 qB qC qD sched)
      rw [hck]
      exact ih _ qB qC qD hwf hB hC hD
    · by_cases hp2 : p = 2
      · rw [show arbReqRunX4 qA qB qC qD (p :: sched) =
          (((readFrame64 qB).1.map fun f => (2, f)) ++
            arbReqRunX4 qA (readFrame64 qB).2 qC qD sched) from by simp [arbReqRunX4, hp, hp2]]
        obtain ⟨hck, hwf⟩ := arbStep qB hB 2 (arbReqRunX4 qA (readFrame64 qB).2 qC qD sched)
        rw [hck]
        exact ih qA _ qC qD hA hwf hC hD
      · by_cases hp3 : p = 3
        · rw [show arbReqRunX4 qA qB qC qD (p :: sched) =
            (((readFrame64 qC).1.map fun f => (3, f)) ++
              arbReqRunX4 qA qB (readFrame64 qC).2 qD sched) from by
                simp [arbReqRunX4, hp, hp2, hp3]]
          obtain ⟨hck, hwf⟩ := arbStep qC hC 3 (arbReqRunX4 qA qB (readFrame64 qC).2 qD sched)
          rw [hck]
          exact ih qA qB _ qD hA hB hwf hD
        · rw [show arbReqRunX4 qA qB qC qD (p :: sched) =
            (((readFrame64 qD).1.map fun f => (4, f)) ++
              arbReqRunX4 qA qB qC (readFrame64 qD).2 sched) from by
                simp [arbReqRunX4, hp, hp2, hp3]]
          obtain ⟨hck, hwf⟩ := arbStep qD hD 4 (arbReqRunX4 qA qB qC (readFrame64 qD).2 sched)
          rw [hck]
          exact ih qA qB qC _ hA hB hC hwf

/-- C2: frame atomicity of the merged downstream request stream.  For
each arbiter (two, three or four ports), for every scheduler choice
sequence and well-formed tagged-request queues, the annotated downstream
stream passes the atomicity checker: once a selected port's frame
starts, every flit up to and including the first with nonzero completion
code comes from that port, and only then may another frame start. -/
theorem c2_frame_atomicity :
    (∀ (sched : List Nat) (qA qB : List Flit64),
      streamWF false qA = true → streamWF false qB = true →
      checkAtomic none (arbReqRunX2 qA qB sched) = true) ∧
    (∀ (sched : List Nat) (qA qB qC : List Flit64),
      streamWF false qA = true → streamWF false qB = true → streamWF false qC = true →
      checkAtomic none (arbReqRunX3 qA qB qC sched) = true) ∧
    (∀ (sched : List Nat) (qA qB qC qD : List Flit64),
      streamWF false qA = true → streamWF false qB = true →
      streamWF false qC = true → streamWF false qD = true →
      checkAtomic none (arbReqRunX4 qA qB qC qD sched) = true) :=
  ⟨arbX2_atomic, arbX3_atomic, arbX4_atomic⟩

/-- C2 witness: atomicity of a concrete two-port run. -/
theorem c2_frame_atomicity_witness :
    streamWF false [flitA] = true ∧ streamWF false [flitB] = true ∧
    checkAtomic none (arbReqRunX2 [flitA] [flitB] [1, 2, 1]) = true :=
  ⟨by decide, by decide, c2_frame_atomicity.1 [1, 2, 1] [flitA] [flitB] (by decide) (by decide)⟩

/-!
Arbiter response side (ArbitrateX2 lines 146-163, ArbitrateX3 lines
231-250, ArbitrateX4 lines 328-349).  One loop reads the shared
downstream response stream; on a header flit (tracked by `isHeaderFlit`,
seeded true, reset after every flit with nonzero completion code) it
remembers payload byte 2 as the routing target; each flit is sent to the
tagged-response channel of the remembered port id (`switch` cases
1..N), or silently discarded when the id matches no case.  The
deliveries are modelled as a list of (port id, flit) pairs.  For
N = 2, 3, 4 the `switch` cases are exactly the ids `1 ≤ pid ≤ N`. -/

def arbRespSteer (n : Nat) : Nat → Bool → List Flit64 → List (Nat × Flit64)
  | _, _, [] => []
  | portId, isHeader, f :: rest =>
    let pid := if isHeader then f.data 2 else portId
    (if 1 ≤ pid ∧ pid ≤ n then [(pid, f)] else []) ++
      arbRespSteer n pid (f.eofc != 0) rest

/-- The port id carried in a frame's header at payload offset 2. -/
def frPid (fr : List Flit64) : Nat := (fr.headD ⟨fun _ => 0, 0⟩).data 2

/-- Flatten a list of frames into one stream. -/
def catFrames : List (List Flit64) → List Flit64
  | [] => []
  | fr :: frames => fr ++ catFrames frames

/-- Intended routing of a sequence of response frames: each frame goes
whole to the port named in its header, or nowhere when that id matches
no configured port. -/
def steerSpec (n : Nat) : List (List Flit64) → List (Nat × Flit64)
  | [] => []
  | fr :: frames =>
    (if 1 ≤ frPid fr ∧ frPid fr ≤ n then fr.map (fun f => (frPid fr, f)) else []) ++
      steerSpec n frames

theorem arbRespSteer_header (n p0 : Nat) (f : Flit64) (rest : List Flit64) :
    arbRespSteer n p0 true (f :: rest) =
      (if 1 ≤ f.data 2 ∧ f.data 2 ≤ n then [(f.data 2, f)] else []) ++
        arbRespSteer n (f.data 2) (f.eofc != 0) rest := rfl

theorem arbRespSteer_body (n p0 : Nat) (f : Flit64) (rest : List Flit64) :
    arbRespSteer n p0 false (f :: rest) =
      (if 1 ≤ p0 ∧ p0 ≤ n then [(p0, f)] else []) ++
        arbRespSteer n p0 (f.eofc != 0) rest := rfl

/-- While inside a frame routed to port `k`, every remaining flit of the
frame is delivered to `k` (or discarded, if `k` is unconfigured), and the
state machine returns to expecting a header exactly after the terminal
flit. -/
theorem arbRespSteer_inframe (n k : Nat) : ∀ (body : List Flit64), IsFrameB body = true →
    ∀ rest, arbRespSteer n k false (body ++ rest) =
      (if 1 ≤ k ∧ k ≤ n then body.map (fun f => (k, f)) else []) ++
        arbRespSteer n k true rest := by
  intro body
  induction body with
  | nil => intro hfr; cases hfr
  | cons f body2 ih =>
    intro hfr rest
    cases body2 with
    | nil =>
      have hfne : f.eofc ≠ 0 := by simpa [IsFrameB] using hfr
      have hbne : (f.eofc != 0) = true := by simpa using hfne
      rw [List.cons_append, List.nil_append, arbRespSteer_body, hbne]
      by_cases hk : 1 ≤ k ∧ k ≤ n <;> simp [hk]
    | cons x xs =>
      have hsplit : f.eofc = 0 ∧ IsFrameB (x :: xs) = true := by
        simpa [IsFrameB] using hfr
      have hbne : (f.eofc != 0) = false := by simpa using hsplit.1
      rw [List.cons_append, arbRespSteer_body, hbne, ih hsplit.2 rest]
      by_cases hk : 1 ≤ k ∧ k ≤ n <;> simp [hk]

/-- Processing one complete frame from the header state: all its flits
go to the port named in its header (or are all discarded), after which
the next frame is awaited. -/
theorem arbRespSteer_frame (n p0 : Nat) (fr : List Flit64) (hfr : IsFrameB fr = true)
    (rest : List Flit64) :
    arbRespSteer n p0 true (fr ++ rest) =
      (if 1 ≤ frPid fr ∧ frPid fr ≤ n then fr.map (fun f => (frPid fr, f)) else []) ++
        arbRespSteer n (frPid fr) true rest := by
  cases fr with
  | nil => cases hfr
  | cons h body =>
    have hpid : frPid (h :: body) = h.data 2 := rfl
    rw [hpid, List.cons_append, arbRespSteer_header]
    cases body with
    | nil =>
      have hfne : h.eofc ≠ 0 := by simpa [IsFrameB] using hfr
      have hbne : (h.eofc != 0) = true := by simpa using hfne
      rw [hbne]
      by_cases hk : 1 ≤ h.data 2 ∧ h.data 2 ≤ n <;> simp [hk]
    | cons x xs =>
      have hsplit : h.eofc = 0 ∧ IsFrameB (x :: xs) = true := by
        simpa [IsFrameB] using hfr
      have hbne : (h.eofc != 0) = false := by simpa using hsplit.1
      rw [hbne, arbRespSteer_inframe n (h.data 2) (x :: xs) hsplit.2 rest]
      by_cases hk : 1 ≤ h.data 2 ∧ h.data 2 ≤ n <;> simp [hk]

/-- The steering loop on a stream of complete frames delivers exactly
the intended routing, for any value of the remembered-port state. -/
theorem arbRespSteer_cat (n : Nat) : ∀ (frames : List (List Flit64)),
    (∀ fr ∈ frames, IsFrameB fr = true) → ∀ p0,
      arbRespSteer n p0 true (catFrames frames) = steerSpec n frames := by
  intro frames
  induction frames with
  | nil => intro _ p0; rfl
  | cons fr frames2 ih =>
    intro hwf p0
    rw [show catFrames (fr :: frames2) = fr ++ catFrames frames2 from rfl,
      arbRespSteer_frame n p0 fr (hwf fr (List.mem_cons_self fr frames2)),
      ih (fun g hg => hwf g (List.mem_cons_of_mem fr hg)) (frPid fr)]
    rfl

theorem arbRespSteer_state_irrel (n p q : Nat) (l : List Flit64) :
    arbRespSteer n p true l = arbRespSteer n q true l := by
  cases l with
  | nil => rfl
  | cons f rest => rfl

/-- C4: response steering correctness.  For each arbiter (2, 3 or 4
ports) and any sequence of complete response frames on the shared
downstream channel, the deliveries are exactly `steerSpec`: every frame
whose header carries a configured port id `k` at payload offset 2 is
delivered — header and all body flits, in order — only to port `k`'s
tagged-response channel and to no other, even when frames for different
ports alternate. -/
theorem c4_response_steering (frames : List (List Flit64))
    (hwf : ∀ fr ∈ frames, IsFrameB fr = true) :
    arbRespSteer 2 0 true (catFrames frames) = steerSpec 2 frames ∧
    arbRespSteer 3 0 true (catFrames frames) = steerSpec 3 frames ∧
    arbRespSteer 4 0 true (catFrames frames) = steerSpec 4 frames :=
  ⟨arbRespSteer_cat 2 frames hwf 0, arbRespSteer_cat 3 frames hwf 0,
   arbRespSteer_cat 4 frames hwf 0⟩

def port1Flit : Flit64 := ⟨fun i => if i = 2 then 1 else 0, 1⟩

def port2Flit : Flit64 := ⟨fun i => if i = 2 then 2 else 0, 1⟩

/-- C4 witness: two alternating single-flit frames for ports 1 and 2. -/
theorem c4_response_steering_witness :
    (∀ fr ∈ [[port1Flit], [port2Flit]], IsFrameB fr = true) ∧
    arbRespSteer 2 0 true (catFrames [[port1Flit], [port2Flit]]) =
      steerSpec 2 [[port1Flit], [port2Flit]] :=
  ⟨by decide, (c4_response_steering [[port1Flit], [port2Flit]] (by decide)).1⟩

/-- C5: discard of invalid routing.  For each arbiter, a complete
response frame whose header port id matches no configured port
(including the reserved id 0) produces no delivery on any port — its
flits are silently discarded, with no fault — and the response state
machine still tracks the frame boundary: the rest of the stream is
processed exactly as if freshly started. -/
theorem c5_invalid_discard (p0 : Nat) (fr rest : List Flit64) (hfr : IsFrameB fr = true) :
    (¬(1 ≤ frPid fr ∧ frPid fr ≤ 2) →
      arbRespSteer 2 p0 true (fr ++ rest) = arbRespSteer 2 0 true rest) ∧
    (¬(1 ≤ frPid fr ∧ frPid fr ≤ 3) →
      arbRespSteer 3 p0 true (fr ++ rest) = arbRespSteer 3 0 true rest) ∧
    (¬(1 ≤ frPid fr ∧ frPid fr ≤ 4) →
      arbRespSteer 4 p0 true (fr ++ rest) = arbRespSteer 4 0 true rest) := by
  refine ⟨?_, ?_, ?_⟩ <;>
  · intro hk
    rw [arbRespSteer_frame _ p0 fr hfr rest, if_neg hk, List.nil_append]
    exact arbRespSteer_state_irrel _ (frPid fr) 0 rest

def zeroFlit : Flit64 := ⟨fun _ => 0, 1⟩

/-- C5 witness: a frame carrying the reserved id 0 is dropped and the
following frame is steered normally. -/
theorem c5_invalid_discard_witness :
    IsFrameB [zeroFlit] = true ∧ ¬(1 ≤ frPid [zeroFlit] ∧ frPid [zeroFlit] ≤ 2) ∧
    arbRespSteer 2 5 true ([zeroFlit] ++ [port1Flit]) = arbRespSteer 2 0 true [port1Flit] :=
  ⟨by decide, by decide,
   (c5_invalid_discard 5 [zeroFlit] [port1Flit] (by decide)).1 (by decide)⟩
